import Mathlib

/-!
# Verification of the jisc-doab reference resolution engine

A shallow embedding, in Lean 4, of the core of the `jisc-doab` repository:
the citation normalizers (`doab/parsing/common.py`,
`doab/parsing/reference_finders.py`), the author/title fuzzy matching engine
(`doab/reference_matching.py`), the reference miner persistence step
(`doab/parsing/reference_miners.py`) and the intersection builder
(`doab/commands.py`).  Python strings are modelled as Lean `String`s,
Python sets of strings as `Finset String`, the relational store as an
explicit record of lists, and floats coming from the trigram distance
operator as rationals.  The PostgreSQL trigram operators (`%`, `<->`) and
the `unidecode` transliteration table are external to the repository and
are taken as parameters.
-/

namespace Doab

/-- Characters on which Python's `str.split()` (no argument) splits: the
Unicode whitespace characters recognised by `str.isspace`. -/
def pyIsSpace (c : Char) : Bool :=
  c.toNat ∈ [0x20, 0x9, 0xA, 0xB, 0xC, 0xD, 0x1C, 0x1D, 0x1E, 0x1F,
    0x85, 0xA0, 0x1680, 0x2000, 0x2001, 0x2002, 0x2003, 0x2004, 0x2005,
    0x2006, 0x2007, 0x2008, 0x2009, 0x200A, 0x2028, 0x2029, 0x202F,
    0x205F, 0x3000]

/-- Helper for `runsOf`: `acc` is the (reversed) run of `p`-characters
currently being accumulated. -/
def runsGo (p : Char → Bool) (acc : List Char) : List Char → List (List Char)
  | [] => if acc = [] then [] else [acc.reverse]
  | c :: rest =>
    if p c then runsGo p (c :: acc) rest
    else if acc = [] then runsGo p [] rest else acc.reverse :: runsGo p [] rest

/-- The maximal runs of characters satisfying `p` in a character list;
used both for Python's `str.split()` (runs of non-whitespace) and for
`re.findall(r"\w+", s)` (runs of word characters). -/
def runsOf (p : Char → Bool) (l : List Char) : List (List Char) :=
  runsGo p [] l

/-- Python `" ".join(words)`. -/
def joinSp : List (List Char) → List Char
  | [] => []
  | [w] => w
  | w :: ws => w ++ ' ' :: joinSp ws

/-- `str.split()` on a character list. -/
def pySplit (l : List Char) : List (List Char) :=
  runsOf (fun c => !pyIsSpace c) l

/-- The character-list core of `CleanReferenceMixin.clean`
(doab/parsing/common.py): remove U+200B, replace newlines with spaces,
then `" ".join(s.split())`. -/
def cleanMixinList (l : List Char) : List Char :=
  let without200b := l.filter (fun c => c ≠ '​')
  let withoutNewlines := without200b.map (fun c => if c = '\n' then ' ' else c)
  joinSp (pySplit withoutNewlines)

/-- `CleanReferenceMixin.clean` as a function on strings. -/
def cleanMixin (s : String) : String :=
  ⟨cleanMixinList s.data⟩

/-- The character class deleted by `BaseReferenceFinder.TO_CLEAN`:
guillemets and the zero-width space. -/
def toCleanChar (c : Char) : Bool :=
  c = '«' || c = '»' || c = '​'

/-- `BaseReferenceFinder.clean` (doab/parsing/reference_finders.py):
replace newlines with spaces, collapse whitespace via `" ".join(s.split())`,
delete the `TO_CLEAN` characters, then transliterate with `unidecode`.
The `unidecode` library is outside the repository; it is modelled as a
parameter `translit` mapping each character to its ASCII transliteration
(on ASCII characters the real `unidecode` is the identity). -/
def finderCleanList (translit : Char → List Char) (l : List Char) : List Char :=
  let withoutNewlines := l.map (fun c => if c = '\n' then ' ' else c)
  let withoutRedundantSpace := joinSp (pySplit withoutNewlines)
  let purged := withoutRedundantSpace.filter (fun c => !toCleanChar c)
  purged.flatMap translit

/-- `BaseReferenceFinder.clean` as a function on strings. -/
def finderClean (translit : Char → List Char) (s : String) : String :=
  ⟨finderCleanList translit s.data⟩

/-- The identity transliteration: the behaviour of `unidecode` on strings
that are already plain ASCII. -/
def asciiTranslit (c : Char) : List Char := [c]

/-! ## Data model (doab/db/models.py) -/

/-- A row of the `parsed_reference` table: one parser's structured
interpretation of one reference.  Composite primary key
`(reference_id, parser)`. -/
structure ParsedReference where
  reference_id : String
  raw_reference : String
  parser : String
  authors : Option String
  title : Option String
  pages : Option String
  journal : Option String
  volume : Option String
  doi : Option String
  year : Option String
deriving DecidableEq, Repr

/-- A row of the `reference` table: the cleaned citation text is its own
primary key; `matched_id` is the nullable foreign key to its intersection.
Intersection ids (UUID strings in the database) are modelled as naturals,
ordered as the database orders the id strings. -/
structure Reference where
  id : String
  matched_id : Option Nat
deriving DecidableEq, Repr

/-- The slice of the relational store that the matching engine, the
intersection builder and the miner read and write.  `bookRefs` is the
`book_reference` join table (pairs of book `doab_id` and reference id);
`intersections` lists the ids of the `intersection` rows;
`nextIntersectionId` stands for the generator of fresh intersection ids. -/
structure DB where
  books : List String
  refs : List Reference
  parsedRefs : List ParsedReference
  bookRefs : List (String × String)
  intersections : List Nat
  nextIntersectionId : Nat
deriving DecidableEq, Repr

/-- The books citing a reference: `reference.books` through the
`book_reference` join table. -/
def booksOf (db : DB) (refId : String) : List String :=
  (db.bookRefs.filter (fun br => br.2 = refId)).map (·.1)

/-! ## Matching engine (doab/reference_matching.py, doab/const.py) -/

/-- `MIN_TITLE_THRESHOLD` (doab/const.py). -/
def MIN_TITLE_THRESHOLD : ℚ := 0.25

/-- `MIN_AUTHOR_THRESHOLD` (doab/const.py). -/
def MIN_AUTHOR_THRESHOLD : ℚ := 1 / 2

/-- A character matched by the regex class `\w`. -/
def isWordChar (c : Char) : Bool := c.isAlphanum || c = '_'

/-- `re.compile(r"\w+").findall(s)`: the maximal runs of word characters. -/
def wordTokens (s : String) : List String :=
  (runsOf isWordChar s.data).map (fun w => ⟨w⟩)

/-- Python's `str.lower`, character by character. -/
def pyLower (s : String) : String := ⟨s.data.map Char.toLower⟩

/-- `_split_names_initials` (doab/reference_matching.py): tokenize the
author string, classify tokens of length 1 as initials and longer tokens
as names, lower-casing each.  Returns `(initials, names)`. -/
def splitNamesInitials (authors : String) : Finset String × Finset String :=
  let author_names : Finset String := (wordTokens authors).toFinset
  let initials := (author_names.filter (fun w => ¬ w.length > 1)).image pyLower
  let names := (author_names.filter (fun w => w.length > 1)).image pyLower
  (initials, names)

/-- `match_authors_fuzzy` (doab/reference_matching.py), embedded verbatim:
the successive `&=` updates of the Python source are the successive
shadowing `let`s, and the `ZeroDivisionError` handler that returns `False`
is the explicit test on the cardinality of the denominator.  A falsy
(`None` or empty) author string on either side short-circuits to `False`. -/
def match_authors_fuzzy (authors : Option String) (parse : ParsedReference) : Bool :=
  match authors, parse.authors with
  | some a, some pa =>
    if a = "" ∨ pa = "" then false
    else
      let matched_names : Finset String := ∅
      let (initials, names) := splitNamesInitials a
      let (parse_initials, parse_names) := splitNamesInitials pa
      let matched_names := matched_names ∩ (names ∩ parse_names)
      let parse_initials := parse_initials ∩ (parse_names \ names)
      let initials := initials ∩ (names \ parse_names)
      let matched_names := matched_names ∩ (initials ∩ parse_initials)
      if (names ∪ initials).card = 0 then false
      else decide ((matched_names.card : ℚ) / ((names ∪ initials).card : ℚ) ≥
        MIN_AUTHOR_THRESHOLD)
  | _, _ => false

/-- The first letter of a token, as a one-character string. -/
def strInitial (s : String) : String :=
  match s.data with
  | [] => ""
  | c :: _ => ⟨[c]⟩

/-- The author-overlap ratio as the specification describes it (§4.4):
intersect the lower-cased name sets after cross-promoting — a name present
on one side only also matches if its first letter occurs among the other
side's initials — and divide by the size of the input side's union of
names and initials.  This follows the spec's words (and the Python
function's own docstring and comments), not the executed code; it is the
yardstick against which the `&=` slip in `match_authors_fuzzy` is judged. -/
def specAuthorOverlapRatio (authors parseAuthors : String) : ℚ :=
  let (initials, names) := splitNamesInitials authors
  let (parse_initials, parse_names) := splitNamesInitials parseAuthors
  let crossed := (names \ parse_names).filter (fun n => strInitial n ∈ parse_initials)
  let parse_crossed := (parse_names \ names).filter (fun n => strInitial n ∈ initials)
  let matched := (names ∩ parse_names) ∪ crossed ∪ parse_crossed
  (matched.card : ℚ) / ((names ∪ initials).card : ℚ)

/-- The structured record handed to the matchers: the dict built by
`match_parsed_reference` from a `ParsedReference` (title, doi, author). -/
structure MatchInput where
  title : Option String
  doi : Option String
  author : Option String
deriving DecidableEq, Repr

/-- The dict `{"title": ..., "doi": ..., "author": ...}` built from a
`ParsedReference` row by `match_parsed_reference`. -/
def toMatchInput (p : ParsedReference) : MatchInput :=
  ⟨p.title, p.doi, p.authors⟩

/-- The `if book_ids: ... filter(Reference.books.any(doab_id.in_(book_ids)))`
restriction each matcher applies: with an empty/absent `book_ids` no filter,
otherwise the candidate's reference must be cited by a supplied book. -/
def bookFilter (db : DB) (book_ids : List String) (refId : String) : Bool :=
  book_ids.isEmpty || (booksOf db refId).any (fun b => book_ids.any (fun b' => b' = b))

/-- `match_by_doi` (doab/reference_matching.py): exact equality on the
`doi` column; returns the matched reference ids (the keys of the returned
dict). -/
def match_by_doi (db : DB) (reference : MatchInput) (book_ids : List String) : List String :=
  match reference.doi with
  | none => []
  | some d =>
    ((db.parsedRefs.filter (fun p =>
      decide (p.doi = some d) && bookFilter db book_ids p.reference_id)).map
      (·.reference_id))

/-- `match_title_exact` (doab/reference_matching.py): exact equality on the
`title` column; returns the matched reference ids. -/
def match_title_exact (db : DB) (reference : MatchInput) (book_ids : List String) :
    List String :=
  match reference.title with
  | none => []
  | some t =>
    ((db.parsedRefs.filter (fun p =>
      decide (p.title = some t) && bookFilter db book_ids p.reference_id)).map
      (·.reference_id))

/-- The PostgreSQL pg_trgm operators used by `match_fuzzy`: `sim` is the
similarity filter `%` and `dist` the distance score `<->`.  They live in
the external store, not in the repository, so they are parameters. -/
structure Trgm where
  sim : String → String → Bool
  dist : String → String → ℚ

/-- The rows returned by `match_fuzzy`'s query: every `ParsedReference`
whose (non-null) title is trigram-similar to the input title, paired with
its distance, restricted to the supplied books when `book_ids` is given. -/
def fuzzyCandidates (trgm : Trgm) (db : DB) (title : String) (book_ids : List String) :
    List (ParsedReference × ℚ) :=
  db.parsedRefs.filterMap (fun p =>
    match p.title with
    | some pt =>
      if trgm.sim pt title && bookFilter db book_ids p.reference_id then
        some (p, trgm.dist pt title)
      else none
    | none => none)

/-- The refinement loop of `match_fuzzy`: keep a candidate when its
distance is at most `MIN_TITLE_THRESHOLD` or the author-fuzzy test passes. -/
def fuzzyMatches (trgm : Trgm) (db : DB) (reference : MatchInput) (title : String)
    (book_ids : List String) : List (ParsedReference × ℚ) :=
  (fuzzyCandidates trgm db title book_ids).filter (fun pd =>
    decide (pd.2 ≤ MIN_TITLE_THRESHOLD) || match_authors_fuzzy reference.author pd.1)

/-- `match_fuzzy` (doab/reference_matching.py): trigram search on the title,
refined by distance-or-authors; returns the matched reference ids. -/
def match_fuzzy (trgm : Trgm) (db : DB) (reference : MatchInput) (book_ids : List String) :
    List String :=
  match reference.title with
  | none => []
  | some title =>
    (fuzzyMatches trgm db reference title book_ids).map (fun pd => pd.1.reference_id)

/-- `match` with `return_references=True`: run the `MATCHERS` cascade
(`match_by_doi`, `match_title_exact`, `match_fuzzy`) and concatenate the
reference ids each returns. -/
def matchRef (trgm : Trgm) (db : DB) (reference : MatchInput) (book_ids : List String) :
    List String :=
  match_by_doi db reference book_ids ++ match_title_exact db reference book_ids ++
    match_fuzzy trgm db reference book_ids

/-! ## Intersection builder (doab/commands.py) -/

/-- The union of the matcher results over all parses of one reference:
`references_matched` in `intersect_reference`. -/
def matchedSet (trgm : Trgm) (db : DB) (referenceId : String) (book_ids : List String) :
    Finset String :=
  (db.parsedRefs.filter (fun p => decide (p.reference_id = referenceId))).foldl
    (fun acc p => acc ∪ (matchRef trgm db (toMatchInput p) book_ids).toFinset) ∅

/-- The `Reference` rows resolved from the matched ids: the query
`session.query(Reference).filter(Reference.id.in_(references_matched))`. -/
def matchedRefs (trgm : Trgm) (db : DB) (referenceId : String) (book_ids : List String) :
    List Reference :=
  db.refs.filter (fun r => decide (r.id ∈ matchedSet trgm db referenceId book_ids))

/-- The existing intersection ids among the matched rows. -/
def clusteredIds (trgm : Trgm) (db : DB) (referenceId : String) (book_ids : List String) :
    List Nat :=
  (matchedRefs trgm db referenceId book_ids).filterMap (fun r => r.matched_id)

/-- The least element of a list of intersection ids, when non-empty: the
non-null `matched_id` of the first row under `order_by(matched_id)`
(ascending, nulls last — the PostgreSQL default). -/
def listMin : List Nat → Option Nat
  | [] => none
  | c :: cs => some (cs.foldl min c)

/-- `intersect_reference` (doab/commands.py).  The matched ids are resolved
to `Reference` rows; in dry-run mode the rows cited by more than one book
are reported and the store is untouched; otherwise the ordering
`order_by(matched_id)` (ascending, nulls last) makes the first row one
with the least existing intersection id when any is clustered, so the
matched rows are all placed on that intersection (their `matched_id` is
set by `intersection.references.extend`), or on a freshly created one
when none is clustered.  An empty resolved set returns early. -/
def intersect_reference (trgm : Trgm) (db : DB) (referenceId : String) (dry_run : Bool)
    (book_ids : List String) : DB × Option (List (String × List String)) :=
  let M := matchedSet trgm db referenceId book_ids
  let references := matchedRefs trgm db referenceId book_ids
  if dry_run then
    (db, some ((references.filter (fun r => decide ((booksOf db r.id).length > 1))).map
      (fun r => (r.id, booksOf db r.id))))
  else
    match references with
    | [] => (db, none)
    | _ :: _ =>
      match listMin (references.filterMap (fun r => r.matched_id)) with
      | none =>
        ({ db with
            refs := db.refs.map (fun r =>
              if r.id ∈ M then { r with matched_id := some db.nextIntersectionId } else r),
            intersections := db.intersections ++ [db.nextIntersectionId],
            nextIntersectionId := db.nextIntersectionId + 1 }, none)
      | some tgt =>
        ({ db with
            refs := db.refs.map (fun r =>
              if r.id ∈ M then { r with matched_id := some tgt } else r) },
          none)

/-- `intersect` (doab/commands.py): select the candidate references (all of
them, restricted to the supplied books when `book_ids` is given — which
also forces dry-run — and, when persisting, to the not-yet-matched ones),
then run `intersect_reference` over them sequentially, collecting the
dry-run reports. -/
def intersect (trgm : Trgm) (db : DB) (book_ids : List String) (dry_run : Bool) :
    DB × List (List (String × List String)) :=
  let dry := dry_run || !book_ids.isEmpty
  let refs0 :=
    if book_ids.isEmpty then db.refs
    else db.refs.filter (fun r => (booksOf db r.id).any (fun b => book_ids.any (fun b' => b' = b)))
  let refs1 := if dry then refs0 else refs0.filter (fun r => decide (r.matched_id = none))
  let ref_ids := refs1.map (·.id)
  ref_ids.foldl
    (fun acc rid =>
      let res := intersect_reference trgm acc.1 rid dry book_ids
      (res.1, match res.2 with | some rep => acc.2 ++ [rep] | none => acc.2))
    (db, [])

/-! ## Reference miner persistence (doab/parsing/reference_miners.py) -/

/-- One parser's raw output for one reference: the structured dict, or
`none` when the parser produced nothing.  Key absence and `None` values
are both `none`. -/
structure ParseRecord where
  author : Option String
  title : Option String
  pages : Option String
  journal : Option String
  volume : Option String
  doi : Option String
  year : Option String
deriving DecidableEq, Repr

/-- The `ParsedReference` row built by `ReferenceMiner.persist` from one
parser's result (`raw_reference` is the cleaned reference text itself). -/
def mkRow (ref parser : String) (parsed : ParseRecord) : ParsedReference :=
  ⟨ref, ref, parser, parsed.author, parsed.title, parsed.pages,
    parsed.journal, parsed.volume, parsed.doi, parsed.year⟩

/-- The inner loop of `ReferenceMiner.persist`: store one parser's result
for one reference, only when it has a truthy title and no
`ParsedReference` row already exists for the `(reference, parser)` pair. -/
def persistParse (ref : String) (db : DB) (entry : String × Option ParseRecord) : DB :=
  match entry with
  | (parser, some parsed) =>
    match parsed.title with
    | some t =>
      if t = "" then db
      else if db.parsedRefs.any (fun p =>
          decide (p.reference_id = ref) && decide (p.parser = parser)) then db
      else { db with parsedRefs := db.parsedRefs ++ [mkRow ref parser parsed] }
    | none => db
  | (_, none) => db

/-- The `try: ... one() / except NoResultFound: session.add(Reference(id=ref))`
step of `ReferenceMiner.persist`: create the `Reference` row unless it
exists. -/
def ensureReference (ref : String) (db : DB) : DB :=
  if db.refs.any (fun r => decide (r.id = ref)) then db
  else { db with refs := db.refs ++ [⟨ref, none⟩] }

/-- The `if reference not in book.references: book.references.append(...)`
step of `ReferenceMiner.persist`: link the reference to the book unless
already linked. -/
def linkBookReference (book_id ref : String) (db : DB) : DB :=
  if db.bookRefs.any (fun br => decide (br = (book_id, ref))) then db
  else { db with bookRefs := db.bookRefs ++ [(book_id, ref)] }

/-- The outer loop body of `ReferenceMiner.persist` for one found
reference: create the `Reference` row unless it exists, link it to the
book unless already linked, then store each parser's result. -/
def persistRef (book_id : String) (db : DB) (entry : String × List (String × Option ParseRecord)) :
    DB :=
  let (ref, parses) := entry
  parses.foldl (persistParse ref) (linkBookReference book_id ref (ensureReference ref db))

/-- `ReferenceMiner.persist`: look the book up (`NoResultFound` when it is
missing is modelled as `none`), then persist every found reference with
its parses. -/
def persist (book_id : String)
    (references : List (String × List (String × Option ParseRecord))) (db : DB) :
    Option DB :=
  if db.books.any (fun b => decide (b = book_id)) then
    some (references.foldl (persistRef book_id) db)
  else none

/-- A parser result the miner will store: present, with a non-empty title
(`if parsed and "title" in parsed and parsed["title"]`). -/
def usableParse (pp : String × Option ParseRecord) : Prop :=
  ∃ rec t, pp.2 = some rec ∧ rec.title = some t ∧ t ≠ ""

/-- A `ParsedReference` row exists for the `(reference, parser)` pair. -/
def hasRow (db : DB) (ref parser : String) : Prop :=
  ∃ q ∈ db.parsedRefs, q.reference_id = ref ∧ q.parser = parser

/-- The state `ReferenceMiner.persist` guarantees for one found reference
after processing it: the `Reference` row exists, the book link exists, and
every usable parse has its row. -/
def MinedComplete (book_id : String) (db : DB)
    (e : String × List (String × Option ParseRecord)) : Prop :=
  (∃ r ∈ db.refs, r.id = e.1) ∧ (book_id, e.1) ∈ db.bookRefs ∧
    ∀ pp ∈ e.2, usableParse pp → hasRow db e.1 pp.1

/-! ## Concrete fixtures used by witnesses and counterexamples -/

/-- A parser output with authors and a non-empty title. -/
def recW : ParseRecord := ⟨some "A. Author", some "T", none, none, none, none, none⟩

/-- One mined reference "r" with a usable parse from parser "P", a failed
parse from "Q" and an empty-title parse from "S". -/
def entW : List (String × List (String × Option ParseRecord)) :=
  [("r", [("P", some recW), ("Q", none),
    ("S", some ⟨none, some "", none, none, none, none, none⟩)])]

/-- An empty store knowing only book "A". -/
def dbW : DB := ⟨["A"], [], [], [], [], 0⟩

/-- The store after mining `entW` for book "A" into `dbW`. -/
def dbW' : DB := ⟨["A"], [⟨"r", none⟩], [mkRow "r" "P" recW], [("A", "r")], [], 0⟩

/-- A parse whose author string is "John Jones". -/
def prJones : ParsedReference :=
  ⟨"r1", "raw1", "Crossref", some "John Jones", some "T", none, none, none, none, none⟩

/-- A parse with a usable author string, paired with token-free inputs. -/
def prX : ParsedReference :=
  ⟨"r2", "raw2", "Crossref", some "x", some "T", none, none, none, none, none⟩

/-- A trigram oracle whose similarity filter rejects everything (no fuzzy
candidates). -/
def trgmNone : Trgm := ⟨fun _ _ => false, fun _ _ => 1⟩

/-- A trigram oracle that accepts everything at distance 0. -/
def trgmZero : Trgm := ⟨fun _ _ => true, fun _ _ => 0⟩

/-- A parse of reference "R" with title "T" and nothing else. -/
def prR : ParsedReference :=
  ⟨"R", "R", "Crossref", none, some "T", none, none, none, none, none⟩

/-- A store with one unclustered reference "R", parsed once, cited by one
book. -/
def dbC8 : DB := ⟨["A"], [⟨"R", none⟩], [prR], [("A", "R")], [], 0⟩

/-- A store with two existing intersections 0 and 1 holding "RA" and "RB"
respectively, an unclustered "RC", and one parse per reference, all
sharing the same DOI. -/
def dbC2 : DB :=
  ⟨[],
    [⟨"RA", some 0⟩, ⟨"RB", some 1⟩, ⟨"RC", none⟩],
    [⟨"RA", "RA", "Crossref", none, none, none, none, none, some "d", none⟩,
      ⟨"RB", "RB", "Crossref", none, none, none, none, none, some "d", none⟩,
      ⟨"RC", "RC", "Crossref", none, none, none, none, none, some "d", none⟩],
    [], [0, 1], 2⟩

/-- A store where reference "R" is cited by book "A" and book "Z". -/
def dbC9 : DB := ⟨["A", "B", "Z"], [⟨"R", none⟩], [prR], [("A", "R"), ("Z", "R")], [], 0⟩

/-- A store holding just the parse `prJones`. -/
def dbC6 : DB := ⟨[], [⟨"r1", none⟩], [prJones], [], [], 0⟩

/-! ## Basic lemmas about runs, joining and cleaning -/

theorem runsGo_append_run (p : Char → Bool) (w : List Char) (hw : ∀ c ∈ w, p c = true) :
    ∀ (acc rest : List Char), runsGo p acc (w ++ rest) = runsGo p (w.reverse ++ acc) rest := by
  induction w with
  | nil => intro acc rest; simp
  | cons c w ih =>
    intro acc rest
    have hc : p c = true := hw c (List.mem_cons_self c w)
    have hw' : ∀ d ∈ w, p d = true := fun d hd => hw d (List.mem_cons_of_mem c hd)
    have h1 : runsGo p acc (c :: (w ++ rest)) = runsGo p (c :: acc) (w ++ rest) := by
      simp [runsGo, hc]
    rw [List.cons_append, h1, ih hw']
    simp

theorem runsOf_joinSp (p : Char → Bool) (hsep : p ' ' = false) :
    ∀ ws : List (List Char), (∀ w ∈ ws, w ≠ [] ∧ ∀ c ∈ w, p c = true) →
      runsOf p (joinSp ws) = ws := by
  intro ws
  induction ws with
  | nil => intro _; simp [runsOf, joinSp, runsGo]
  | cons w ws ih =>
    intro h
    obtain ⟨hwne, hwp⟩ := h w (List.mem_cons_self w ws)
    have hws : ∀ w ∈ ws, w ≠ [] ∧ ∀ c ∈ w, p c = true :=
      fun w hw => h w (List.mem_cons_of_mem _ hw)
    match ws with
    | [] =>
      have h2 := runsGo_append_run p w hwp [] []
      rw [List.append_nil] at h2
      show runsGo p [] w = [w]
      rw [h2]
      simp [runsGo, hwne]
    | w' :: ws' =>
      show runsGo p [] (w ++ ' ' :: joinSp (w' :: ws')) = w :: w' :: ws'
      rw [runsGo_append_run p w hwp]
      simp only [List.append_nil, runsGo, hsep]
      simp only [Bool.false_eq_true, if_false, List.reverse_eq_nil_iff, hwne, if_neg hwne,
        List.reverse_reverse]
      exact congrArg (w :: ·) (ih hws)

theorem runsGo_mem (p : Char → Bool) :
    ∀ (l acc : List Char), (∀ c ∈ acc, p c = true) →
      ∀ w ∈ runsGo p acc l, w ≠ [] ∧ ∀ c ∈ w, p c = true ∧ (c ∈ acc ∨ c ∈ l) := by
  intro l
  induction l with
  | nil =>
    intro acc hacc w hw
    by_cases h : acc = []
    · simp [runsGo, h] at hw
    · simp only [runsGo, if_neg h, List.mem_singleton] at hw
      subst hw
      refine ⟨by simpa using h, fun c hc => ?_⟩
      rw [List.mem_reverse] at hc
      exact ⟨hacc c hc, Or.inl hc⟩
  | cons d rest ih =>
    intro acc hacc w hw
    by_cases hd : p d = true
    · simp only [runsGo, hd, if_true] at hw
      have hacc' : ∀ c ∈ d :: acc, p c = true := by
        intro c hc
        rcases List.mem_cons.mp hc with h | h
        · exact h ▸ hd
        · exact hacc c h
      obtain ⟨hne, hmem⟩ := ih (d :: acc) hacc' w hw
      refine ⟨hne, fun c hc => ?_⟩
      obtain ⟨hp, hor⟩ := hmem c hc
      refine ⟨hp, ?_⟩
      rcases hor with h | h
      · rcases List.mem_cons.mp h with h | h
        · exact Or.inr (h ▸ List.mem_cons_self d rest)
        · exact Or.inl h
      · exact Or.inr (List.mem_cons_of_mem d h)
    · rw [runsGo, if_neg hd] at hw
      by_cases h : acc = []
      · rw [if_pos h] at hw
        obtain ⟨hne, hmem⟩ := ih [] (by simp) w hw
        exact ⟨hne, fun c hc => ⟨(hmem c hc).1, Or.inr (List.mem_cons_of_mem d
          ((hmem c hc).2.resolve_left (by simp)))⟩⟩
      · rw [if_neg h] at hw
        rcases List.mem_cons.mp hw with hw | hw
        · subst hw
          refine ⟨by simpa using h, fun c hc => ?_⟩
          rw [List.mem_reverse] at hc
          exact ⟨hacc c hc, Or.inl hc⟩
        · obtain ⟨hne, hmem⟩ := ih [] (by simp) w hw
          exact ⟨hne, fun c hc => ⟨(hmem c hc).1, Or.inr (List.mem_cons_of_mem d
            ((hmem c hc).2.resolve_left (by simp)))⟩⟩

theorem runsOf_mem (p : Char → Bool) (l : List Char) :
    ∀ w ∈ runsOf p l, w ≠ [] ∧ ∀ c ∈ w, p c = true ∧ c ∈ l := by
  intro w hw
  obtain ⟨hne, hmem⟩ := runsGo_mem p l [] (by simp) w hw
  exact ⟨hne, fun c hc => ⟨(hmem c hc).1, ((hmem c hc).2).resolve_left (by simp)⟩⟩

theorem mem_joinSp {c : Char} : ∀ {ws : List (List Char)}, c ∈ joinSp ws →
    (∃ w ∈ ws, c ∈ w) ∨ c = ' ' := by
  intro ws
  induction ws with
  | nil => intro h; simp [joinSp] at h
  | cons w ws ih =>
    intro h
    cases ws with
    | nil => exact Or.inl ⟨w, List.mem_singleton.mpr rfl, h⟩
    | cons w' ws' =>
      rw [show joinSp (w :: w' :: ws') = w ++ ' ' :: joinSp (w' :: ws') from rfl,
        List.mem_append, List.mem_cons] at h
      rcases h with h | h | h
      · exact Or.inl ⟨w, List.mem_cons_self _ _, h⟩
      · exact Or.inr h
      · rcases ih h with ⟨u, hu, hcu⟩ | h
        · exact Or.inl ⟨u, List.mem_cons_of_mem _ hu, hcu⟩
        · exact Or.inr h

theorem map_eq_self {f : Char → Char} : ∀ {l : List Char}, (∀ c ∈ l, f c = c) → l.map f = l := by
  intro l
  induction l with
  | nil => intro _; rfl
  | cons c l ih =>
    intro h
    simp only [List.map_cons, h c (List.mem_cons_self c l),
      ih (fun d hd => h d (List.mem_cons_of_mem c hd))]

theorem flatMap_eq_self {f : Char → List Char} :
    ∀ {l : List Char}, (∀ c ∈ l, f c = [c]) → l.flatMap f = l := by
  intro l
  induction l with
  | nil => intro _; rfl
  | cons c l ih =>
    intro h
    simp only [List.flatMap_cons, h c (List.mem_cons_self c l),
      ih (fun d hd => h d (List.mem_cons_of_mem c hd)), List.singleton_append]

theorem pySplit_words (l : List Char) :
    ∀ w ∈ pySplit l, w ≠ [] ∧ ∀ c ∈ w, pyIsSpace c = false ∧ c ∈ l := by
  intro w hw
  obtain ⟨hne, hmem⟩ := runsOf_mem (fun c => !pyIsSpace c) l w hw
  exact ⟨hne, fun c hc => ⟨by simpa using (hmem c hc).1, (hmem c hc).2⟩⟩

theorem pySplit_joinSp (ws : List (List Char))
    (h : ∀ w ∈ ws, w ≠ [] ∧ ∀ c ∈ w, pyIsSpace c = false) :
    pySplit (joinSp ws) = ws := by
  refine runsOf_joinSp (fun c => !pyIsSpace c) (by decide) ws (fun w hw => ?_)
  exact ⟨(h w hw).1, fun c hc => by simpa using (h w hw).2 c hc⟩

theorem filter_joinSp (q : Char → Bool) (hq : q ' ' = true) :
    ∀ ws : List (List Char), (joinSp ws).filter q = joinSp (ws.map (·.filter q)) := by
  intro ws
  induction ws with
  | nil => rfl
  | cons w ws ih =>
    cases ws with
    | nil => rfl
    | cons w' ws' =>
      rw [show joinSp (w :: w' :: ws') = w ++ ' ' :: joinSp (w' :: ws') from rfl,
        List.filter_append, List.filter_cons_of_pos hq, ih]
      rfl

theorem flatMap_joinSp (t : Char → List Char) (ht : t ' ' = [' ']) :
    ∀ ws : List (List Char), (joinSp ws).flatMap t = joinSp (ws.map (·.flatMap t)) := by
  intro ws
  induction ws with
  | nil => rfl
  | cons w ws ih =>
    cases ws with
    | nil => rfl
    | cons w' ws' =>
      rw [show joinSp (w :: w' :: ws') = w ++ ' ' :: joinSp (w' :: ws') from rfl,
        List.flatMap_append, List.flatMap_cons, ht, ih]
      rfl

theorem cleanMixinList_idempotent (l : List Char) :
    cleanMixinList (cleanMixinList l) = cleanMixinList l := by
  simp only [cleanMixinList]
  set l₂ := (l.filter (fun c => c ≠ '​')).map (fun c => if c = '\n' then ' ' else c) with hl₂
  set ws := pySplit l₂ with hws
  have hwords := pySplit_words l₂
  have hchar : ∀ c ∈ joinSp ws, (pyIsSpace c = false ∧ c ∈ l₂) ∨ c = ' ' := by
    intro c hc
    rcases mem_joinSp hc with ⟨w, hw, hcw⟩ | hc'
    · exact Or.inl ((hwords w hw).2 c hcw)
    · exact Or.inr hc'
  have hnot200b : ∀ c ∈ joinSp ws, c ≠ '​' := by
    intro c hc
    rcases hchar c hc with ⟨_, hcl⟩ | hc'
    · rw [hl₂] at hcl
      obtain ⟨d, hdl, hdc⟩ := List.mem_map.mp hcl
      by_cases hd : d = '\n'
      · simp only [hd, if_pos rfl] at hdc; subst hdc; decide
      · rw [if_neg hd] at hdc
        subst hdc
        have := List.of_mem_filter hdl
        simpa using this
    · subst hc'; decide
  have hnotnl : ∀ c ∈ joinSp ws, c ≠ '\n' := by
    intro c hc
    rcases hchar c hc with ⟨hsp, _⟩ | hc'
    · intro hcn; rw [hcn] at hsp; simp [pyIsSpace] at hsp
    · subst hc'; decide
  have h1 : (joinSp ws).filter (fun c => c ≠ '​') = joinSp ws :=
    List.filter_eq_self.mpr (fun c hc => by simpa using hnot200b c hc)
  have h2 : (joinSp ws).map (fun c => if c = '\n' then ' ' else c) = joinSp ws :=
    map_eq_self (fun c hc => if_neg (hnotnl c hc))
  have h3 : pySplit (joinSp ws) = ws :=
    pySplit_joinSp ws (fun w hw => ⟨(hwords w hw).1, fun c hc => ((hwords w hw).2 c hc).1⟩)
  rw [h1, h2, h3]

/-- The plain cleaner of `CleanReferenceMixin` is idempotent. -/
theorem cleanMixin_idempotent (s : String) : cleanMixin (cleanMixin s) = cleanMixin s :=
  congrArg String.mk (cleanMixinList_idempotent s.data)

/-- The finder-side cleaner is idempotent provided (a) stripping the
`TO_CLEAN` characters leaves every whitespace-separated token non-empty
and (b) the transliteration maps the space to itself and, on the
non-whitespace non-stripped characters, yields non-empty output free of
whitespace and `TO_CLEAN` characters, on which it acts as the identity. -/
theorem finderCleanList_idempotent (translit : Char → List Char) (l₀ : List Char)
    (hsp : translit ' ' = [' '])
    (hout : ∀ c, pyIsSpace c = false → toCleanChar c = false →
      ∀ c' ∈ translit c, pyIsSpace c' = false ∧ toCleanChar c' = false)
    (hptw : ∀ c, pyIsSpace c = false → toCleanChar c = false →
      ∀ c' ∈ translit c, translit c' = [c'])
    (hne : ∀ c, pyIsSpace c = false → toCleanChar c = false → translit c ≠ [])
    (hwords : ∀ w ∈ pySplit (l₀.map (fun c => if c = '\n' then ' ' else c)),
      w.filter (fun c => !toCleanChar c) ≠ []) :
    finderCleanList translit (finderCleanList translit l₀) = finderCleanList translit l₀ := by
  simp only [finderCleanList]
  set l := l₀.map (fun c => if c = '\n' then ' ' else c) with hl
  set ws := pySplit l with hws
  have hwprops := pySplit_words l
  -- the image words: strip `TO_CLEAN`, then transliterate
  set F : List Char → List Char :=
    fun w => (w.filter (fun c => !toCleanChar c)).flatMap translit with hF
  have hstep : ((joinSp ws).filter (fun c => !toCleanChar c)).flatMap translit =
      joinSp (ws.map F) := by
    rw [filter_joinSp _ (by decide), flatMap_joinSp _ hsp, List.map_map]
    rfl
  have himg : ∀ w ∈ ws, F w ≠ [] ∧ ∀ c' ∈ F w,
      pyIsSpace c' = false ∧ toCleanChar c' = false ∧ translit c' = [c'] := by
    intro w hw
    have hwchars : ∀ c ∈ w.filter (fun c => !toCleanChar c),
        pyIsSpace c = false ∧ toCleanChar c = false := by
      intro c hc
      have h1 := List.of_mem_filter hc
      have h2 := List.mem_of_mem_filter hc
      exact ⟨((hwprops w hw).2 c h2).1, by simpa using h1⟩
    constructor
    · rw [hF]
      obtain ⟨c, hc⟩ := List.exists_mem_of_ne_nil _ (hwords w hw)
      intro hnil
      have : translit c = [] := by
        have hsub : translit c ⊆ [] := by
          rw [← hnil]
          intro c' hc'
          exact List.mem_flatMap.mpr ⟨c, hc, hc'⟩
        exact List.eq_nil_iff_forall_not_mem.mpr (fun a ha => by simpa using hsub ha)
      exact hne c (hwchars c hc).1 (hwchars c hc).2 this
    · intro c' hc'
      obtain ⟨c, hc, hc'mem⟩ := List.mem_flatMap.mp hc'
      obtain ⟨hcs, hcc⟩ := hwchars c hc
      obtain ⟨h1, h2⟩ := hout c hcs hcc c' hc'mem
      exact ⟨h1, h2, hptw c hcs hcc c' hc'mem⟩
  -- character facts about the once-cleaned string
  have hchar : ∀ c ∈ joinSp (ws.map F),
      (pyIsSpace c = false ∧ toCleanChar c = false ∧ translit c = [c]) ∨ c = ' ' := by
    intro c hc
    rcases mem_joinSp hc with ⟨w', hw', hcw'⟩ | hc'
    · obtain ⟨w, hw, hFw⟩ := List.mem_map.mp hw'
      exact Or.inl ((himg w hw).2 c (hFw ▸ hcw'))
    · exact Or.inr hc'
  have h2 : (joinSp (ws.map F)).map (fun c => if c = '\n' then ' ' else c) =
      joinSp (ws.map F) := by
    refine map_eq_self (fun c hc => if_neg ?_)
    rcases hchar c hc with ⟨hsp', _, _⟩ | hc'
    · intro hcn; rw [hcn] at hsp'; simp [pyIsSpace] at hsp'
    · subst hc'; decide
  have h3 : pySplit (joinSp (ws.map F)) = ws.map F := by
    refine pySplit_joinSp _ (fun w' hw' => ?_)
    obtain ⟨w, hw, hFw⟩ := List.mem_map.mp hw'
    exact ⟨hFw ▸ (himg w hw).1, fun c hc => ((himg w hw).2 c (hFw ▸ hc)).1⟩
  have h4 : (joinSp (ws.map F)).filter (fun c => !toCleanChar c) = joinSp (ws.map F) := by
    refine List.filter_eq_self.mpr (fun c hc => ?_)
    rcases hchar c hc with ⟨_, hcc, _⟩ | hc'
    · simp [hcc]
    · subst hc'; decide
  have h5 : (joinSp (ws.map F)).flatMap translit = joinSp (ws.map F) := by
    refine flatMap_eq_self (fun c hc => ?_)
    rcases hchar c hc with ⟨_, _, hid⟩ | hc'
    · exact hid
    · subst hc'; exact hsp
  rw [hstep, h2, h3, h4, h5]

/-- The finder-side cleaner is idempotent under the `finderCleanList_idempotent`
hypotheses on the transliteration and the tokens of the input. -/
theorem finderClean_idempotent (translit : Char → List Char) (s : String)
    (hsp : translit ' ' = [' '])
    (hout : ∀ c, pyIsSpace c = false → toCleanChar c = false →
      ∀ c' ∈ translit c, pyIsSpace c' = false ∧ toCleanChar c' = false)
    (hptw : ∀ c, pyIsSpace c = false → toCleanChar c = false →
      ∀ c' ∈ translit c, translit c' = [c'])
    (hne : ∀ c, pyIsSpace c = false → toCleanChar c = false → translit c ≠ [])
    (hwords : ∀ w ∈ pySplit (s.data.map (fun c => if c = '\n' then ' ' else c)),
      w.filter (fun c => !toCleanChar c) ≠ []) :
    finderClean translit (finderClean translit s) = finderClean translit s :=
  congrArg String.mk
    (finderCleanList_idempotent translit s.data hsp hout hptw hne hwords)

/-! ## The author-fuzzy test -/

/-- `match_authors_fuzzy` never returns `True`: `matched_names` starts
empty and is only ever intersected (`&=`), so the computed ratio is `0`. -/
theorem match_authors_fuzzy_eq_false (authors : Option String) (parse : ParsedReference) :
    match_authors_fuzzy authors parse = false := by
  rcases authors with _ | a
  · rfl
  rcases hpa : parse.authors with _ | pa
  · simp [match_authors_fuzzy, hpa]
  by_cases h : a = "" ∨ pa = ""
  · simp [match_authors_fuzzy, hpa, h]
  rcases h1 : splitNamesInitials a with ⟨ini, nms⟩
  rcases h2 : splitNamesInitials pa with ⟨pini, pnms⟩
  simp only [match_authors_fuzzy, hpa, if_neg h, h1, h2]
  split
  · rfl
  · simp only [Finset.empty_inter, Finset.card_empty, Nat.cast_zero, zero_div,
      decide_eq_false_iff_not, ge_iff_le, MIN_AUTHOR_THRESHOLD]
    norm_num

/-- C1: the claim fails, and the code is the culprit.  Because the Python
source updates the initially-empty `matched_names` with `&=` where its own
comments describe adding (`|=`), `match_authors_fuzzy` returns `False` on
every input — in particular on the author pair "John Smith" / "John Jones",
whose name/initial overlap ratio as specified (and as the function's
docstring intends) is exactly `MIN_AUTHOR_THRESHOLD` and which the claim
therefore requires to pass. -/
theorem c1_author_fuzzy_never_passes :
    (∀ (authors : Option String) (parse : ParsedReference),
      match_authors_fuzzy authors parse = false) ∧
    specAuthorOverlapRatio "John Smith" "John Jones" = MIN_AUTHOR_THRESHOLD ∧
    match_authors_fuzzy (some "John Smith") prJones = false := by
  refine ⟨match_authors_fuzzy_eq_false, ?_, match_authors_fuzzy_eq_false _ _⟩
  rw [show specAuthorOverlapRatio "John Smith" "John Jones" = ((1:ℕ) : ℚ) / ((2:ℕ) : ℚ)
    from rfl]
  norm_num [MIN_AUTHOR_THRESHOLD]

/-- C10: the author-fuzzy test is total on degenerate inputs: a missing or
empty author string on either side, or an input with no word tokens at all
(zero denominator, the `ZeroDivisionError` path), yields `False` rather
than an error. -/
theorem c10_author_fuzzy_total (authors : Option String) (parse : ParsedReference)
    (_h : authors = none ∨ authors = some "" ∨
      (∃ s, authors = some s ∧ wordTokens s = []) ∨
      parse.authors = none ∨ parse.authors = some "") :
    match_authors_fuzzy authors parse = false :=
  match_authors_fuzzy_eq_false authors parse

/-- Witness for C10 at the zero-denominator input "!!!". -/
theorem c10_author_fuzzy_total_witness :
    (∃ s, (some "!!!" : Option String) = some s ∧ wordTokens s = []) ∧
    match_authors_fuzzy (some "!!!") prX = false :=
  ⟨⟨"!!!", rfl, by decide⟩,
    c10_author_fuzzy_total (some "!!!") prX
      (Or.inr (Or.inr (Or.inl ⟨"!!!", rfl, by decide⟩)))⟩

/-! ## The citation normalizers (claim C7) -/

/-- C7 counterexample: the finder-side cleaner is not idempotent.  On
`"a « b"` the guillemet is stripped only after whitespace collapsing,
leaving a double space that a second pass collapses.  Every character the
transliteration sees here is ASCII, where `unidecode` is the identity, so
the identity transliteration is faithful at this input. -/
theorem c7_finderClean_not_idempotent :
    finderClean asciiTranslit (finderClean asciiTranslit "a « b") ≠
      finderClean asciiTranslit "a « b" := by decide

/-- C7 (amended): the plain cleaner is idempotent for every input; the
finder-side cleaner is idempotent only when stripping the guillemet/zero-width
characters leaves every whitespace-separated token non-empty (and the
transliteration is space-preserving, produces non-empty whitespace-free
ASCII-stable output on the characters it is fed) — without the token
proviso a standalone `«` leaves a double space that a second pass
collapses. -/
theorem c7_normalizer_idempotence (translit : Char → List Char)
    (hsp : translit ' ' = [' '])
    (hout : ∀ c, pyIsSpace c = false → toCleanChar c = false →
      ∀ c' ∈ translit c, pyIsSpace c' = false ∧ toCleanChar c' = false)
    (hptw : ∀ c, pyIsSpace c = false → toCleanChar c = false →
      ∀ c' ∈ translit c, translit c' = [c'])
    (hne : ∀ c, pyIsSpace c = false → toCleanChar c = false → translit c ≠ []) :
    (∀ r : String, cleanMixin (cleanMixin r) = cleanMixin r) ∧
    (∀ r : String,
      (∀ w ∈ pySplit (r.data.map (fun c => if c = '\n' then ' ' else c)),
        w.filter (fun c => !toCleanChar c) ≠ []) →
      finderClean translit (finderClean translit r) = finderClean translit r) :=
  ⟨cleanMixin_idempotent,
    fun r hwords => finderClean_idempotent translit r hsp hout hptw hne hwords⟩

/-- Witness for C7 (amended) at the identity transliteration and the
inputs `"a​  b\nc"` and `"ab cd"`. -/
theorem c7_normalizer_idempotence_witness :
    cleanMixin (cleanMixin "a​  b\nc") = cleanMixin "a​  b\nc" ∧
    (∀ w ∈ pySplit (("ab cd").data.map (fun c => if c = '\n' then ' ' else c)),
      w.filter (fun c => !toCleanChar c) ≠ []) ∧
    finderClean asciiTranslit (finderClean asciiTranslit "ab cd") =
      finderClean asciiTranslit "ab cd" := by
  have hout : ∀ c, pyIsSpace c = false → toCleanChar c = false →
      ∀ c' ∈ asciiTranslit c, pyIsSpace c' = false ∧ toCleanChar c' = false := by
    intro c h1 h2 c' hc'
    simp only [asciiTranslit, List.mem_singleton] at hc'
    subst hc'
    exact ⟨h1, h2⟩
  have hptw : ∀ c, pyIsSpace c = false → toCleanChar c = false →
      ∀ c' ∈ asciiTranslit c, asciiTranslit c' = [c'] := by
    intro c _ _ c' hc'
    simp only [asciiTranslit, List.mem_singleton] at hc'
    subst hc'
    rfl
  have hne : ∀ c, pyIsSpace c = false → toCleanChar c = false → asciiTranslit c ≠ [] := by
    intro c _ _
    simp [asciiTranslit]
  exact ⟨(c7_normalizer_idempotence asciiTranslit rfl hout hptw hne).1 _, by decide,
    (c7_normalizer_idempotence asciiTranslit rfl hout hptw hne).2 "ab cd" (by decide)⟩

/-! ## The intersection builder -/

theorem listMin_eq_none {l : List Nat} : listMin l = none ↔ l = [] := by
  cases l <;> simp [listMin]

theorem foldl_min_spec (cs : List Nat) : ∀ c : Nat,
    (cs.foldl min c = c ∨ cs.foldl min c ∈ cs) ∧ cs.foldl min c ≤ c ∧
      ∀ i ∈ cs, cs.foldl min c ≤ i := by
  induction cs with
  | nil => intro c; exact ⟨Or.inl rfl, le_refl c, by simp⟩
  | cons d cs ih =>
    intro c
    rw [List.foldl_cons]
    obtain ⟨hmem, hle, hall⟩ := ih (min c d)
    refine ⟨?_, le_trans hle (min_le_left c d), ?_⟩
    · rcases hmem with h | h
      · rcases min_choice c d with hm | hm
        · exact Or.inl (h.trans hm)
        · refine Or.inr ?_
          rw [h.trans hm]
          exact List.mem_cons_self d cs
      · exact Or.inr (List.mem_cons_of_mem d h)
    · intro i hi
      rcases List.mem_cons.mp hi with hi | hi
      · rw [hi]
        exact le_trans hle (min_le_right c d)
      · exact hall i hi

theorem listMin_spec {l : List Nat} {m : Nat} (h : listMin l = some m) :
    m ∈ l ∧ ∀ i ∈ l, m ≤ i := by
  cases l with
  | nil => simp [listMin] at h
  | cons c cs =>
    simp only [listMin, Option.some_inj] at h
    obtain ⟨hmem, hle, hall⟩ := foldl_min_spec cs c
    constructor
    · rw [← h]
      rcases hmem with h' | h'
      · rw [h']
        exact List.mem_cons_self c cs
      · exact List.mem_cons_of_mem c h'
    · intro i hi
      rw [← h]
      rcases List.mem_cons.mp hi with hi' | hi'
      · rw [hi']
        exact hle
      · exact hall i hi'

theorem intersect_dryFold (trgm : Trgm) (book_ids : List String) :
    ∀ (ids : List String) (db : DB) (reps : List (List (String × List String))),
      (ids.foldl (fun acc rid =>
        let res := intersect_reference trgm acc.1 rid true book_ids
        (res.1, match res.2 with | some rep => acc.2 ++ [rep] | none => acc.2))
        (db, reps)).1 = db := by
  intro ids
  induction ids with
  | nil => intro db reps; rfl
  | cons rid ids ih =>
    intro db reps
    rw [List.foldl_cons]
    exact ih db _

/-- C3: dry-run purity.  A dry-run invocation of `intersect_reference`
leaves the store untouched, and an `intersect` invocation with `dry_run`
set — or with a non-empty `book_ids`, which forces dry-run — returns the
store unchanged: no intersection row and no `matched_id` link differs. -/
theorem c3_dry_run_purity (trgm : Trgm) (db : DB) (referenceId : String)
    (book_ids : List String) (dry_run : Bool)
    (h : dry_run = true ∨ book_ids ≠ []) :
    (intersect trgm db book_ids dry_run).1 = db ∧
    (intersect_reference trgm db referenceId true book_ids).1 = db := by
  refine ⟨?_, rfl⟩
  have hdry : (dry_run || !book_ids.isEmpty) = true := by
    rcases h with h | h
    · simp [h]
    · simp [h]
  simp only [intersect, hdry, if_true]
  exact intersect_dryFold trgm book_ids _ db []

/-- Witness for C3: a book-scoped invocation with `dry_run = false` (forced
dry) and a dry `intersect_reference` both leave the fixture store `dbC9`
unchanged. -/
theorem c3_dry_run_purity_witness :
    (["A", "B"] ≠ ([] : List String)) ∧
    (intersect trgmNone dbC9 ["A", "B"] false).1 = dbC9 ∧
    (intersect_reference trgmNone dbC9 "R" true ["A", "B"]).1 = dbC9 :=
  ⟨by decide,
    (c3_dry_run_purity trgmNone dbC9 "R" ["A", "B"] false (Or.inr (by decide))).1,
    (c3_dry_run_purity trgmNone dbC9 "R" ["A", "B"] false (Or.inr (by decide))).2⟩

/-- C8 counterexample: a candidate whose matching yields exactly one
matched reference (fewer than two) still creates a new Intersection: on
`dbC8` the single reference "R" matches only itself, yet the persist pass
adds intersection id 0. -/
theorem c8_singleton_creates_intersection :
    (matchedRefs trgmNone dbC8 "R" []).length = 1 ∧
    (intersect_reference trgmNone dbC8 "R" false []).1.intersections ≠
      dbC8.intersections :=
  ⟨by decide, by decide⟩

/-- C8 (amended): the persist pass creates a new Intersection exactly when
the matched reference set is non-empty and none of the matched references
already belongs to an Intersection — in particular a single unclustered
matched reference does create a (singleton) Intersection, while an empty
matched set creates none. -/
theorem c8_intersection_created_iff (trgm : Trgm) (db : DB) (referenceId : String)
    (book_ids : List String) :
    (intersect_reference trgm db referenceId false book_ids).1.intersections =
      (if matchedRefs trgm db referenceId book_ids ≠ [] ∧
          clusteredIds trgm db referenceId book_ids = []
        then db.intersections ++ [db.nextIntersectionId]
        else db.intersections) := by
  have hcl : clusteredIds trgm db referenceId book_ids =
      (matchedRefs trgm db referenceId book_ids).filterMap (fun r => r.matched_id) := rfl
  rcases h1 : matchedRefs trgm db referenceId book_ids with _ | ⟨r, rs⟩
  · simp [intersect_reference, h1]
  · rcases h2 : listMin ((r :: rs).filterMap (fun r => r.matched_id)) with _ | tgt
    · have h3 : (r :: rs).filterMap (fun r => r.matched_id) = [] := listMin_eq_none.mp h2
      simp [intersect_reference, h1, h2, hcl, h3, listMin]
    · have h3 : (r :: rs).filterMap (fun r => r.matched_id) ≠ [] := by
        intro hf
        rw [hf] at h2
        simp [listMin] at h2
      simp [intersect_reference, h1, h2, hcl, h3]

/-- C2 counterexample: the persist pass can remove a reference from an
Intersection.  In `dbC2` the candidate "RC" matches "RA" (in intersection
0) and "RB" (in intersection 1); the pass reassigns "RB" to intersection
0, so intersection 1 loses its only member. -/
theorem c2_reference_moved_between_intersections :
    (dbC2.refs.filter (fun r => decide (r.matched_id = some 1))).length = 1 ∧
    ((intersect_reference trgmNone dbC2 "RC" false []).1.refs.filter
      (fun r => decide (r.matched_id = some 1))).length = 0 :=
  ⟨by decide, by decide⟩

/-- C2 (amended): when some matched reference is already clustered, the
persist pass creates no new Intersection and assigns every matched
reference to the least existing intersection id among the matched ones;
references outside the matched set are untouched.  Intersection
membership only grows provided the matched set meets at most one
pre-existing Intersection — otherwise matched members of the other
Intersections are moved into the least one. -/
theorem c2_join_existing_cluster (trgm : Trgm) (db : DB) (referenceId : String)
    (book_ids : List String) (tgt : Nat)
    (h : listMin (clusteredIds trgm db referenceId book_ids) = some tgt) :
    ((intersect_reference trgm db referenceId false book_ids).1.intersections =
        db.intersections ∧
      (intersect_reference trgm db referenceId false book_ids).1.nextIntersectionId =
        db.nextIntersectionId ∧
      (intersect_reference trgm db referenceId false book_ids).1.refs =
        db.refs.map (fun r =>
          if r.id ∈ matchedSet trgm db referenceId book_ids then
            { r with matched_id := some tgt } else r) ∧
      tgt ∈ clusteredIds trgm db referenceId book_ids ∧
      ∀ i ∈ clusteredIds trgm db referenceId book_ids, tgt ≤ i) ∧
    ((∀ i ∈ clusteredIds trgm db referenceId book_ids, i = tgt) →
      ∀ (j : Nat), ∀ r ∈ db.refs, r.matched_id = some j →
        ∃ r' ∈ (intersect_reference trgm db referenceId false book_ids).1.refs,
          r'.id = r.id ∧ r'.matched_id = some j) := by
  have hcldef : clusteredIds trgm db referenceId book_ids =
      (matchedRefs trgm db referenceId book_ids).filterMap (fun r => r.matched_id) := rfl
  rcases h1 : matchedRefs trgm db referenceId book_ids with _ | ⟨r0, rs⟩
  · rw [hcldef, h1] at h
    simp [listMin] at h
  have h2 : listMin ((r0 :: rs).filterMap (fun r => r.matched_id)) = some tgt := by
    rw [hcldef, h1] at h
    exact h
  have heval : (intersect_reference trgm db referenceId false book_ids).1 =
      { db with refs := db.refs.map (fun r =>
          if r.id ∈ matchedSet trgm db referenceId book_ids then
            { r with matched_id := some tgt } else r) } := by
    simp [intersect_reference, h1, h2]
  refine ⟨⟨by rw [heval], by rw [heval], by rw [heval], (listMin_spec h).1,
    (listMin_spec h).2⟩, ?_⟩
  intro hall j r hr hrj
  rw [heval]
  by_cases hm : r.id ∈ matchedSet trgm db referenceId book_ids
  · refine ⟨{ r with matched_id := some tgt }, List.mem_map.mpr ⟨r, hr, by simp [hm]⟩,
      rfl, ?_⟩
    have hj : j ∈ clusteredIds trgm db referenceId book_ids := by
      have hrm : r ∈ matchedRefs trgm db referenceId book_ids :=
        List.mem_filter.mpr ⟨hr, by simpa using hm⟩
      exact List.mem_filterMap.mpr ⟨r, hrm, hrj⟩
    rw [hall j hj]
  · exact ⟨r, List.mem_map.mpr ⟨r, hr, by simp [hm]⟩, rfl, hrj⟩

/-- Witness for C2 (amended) on `dbC2` with candidate "RC": the least
clustered id is 0 and no new Intersection is created. -/
theorem c2_join_existing_cluster_witness :
    listMin (clusteredIds trgmNone dbC2 "RC" []) = some 0 ∧
    (intersect_reference trgmNone dbC2 "RC" false []).1.intersections =
      dbC2.intersections :=
  ⟨by decide, (c2_join_existing_cluster trgmNone dbC2 "RC" [] 0 (by decide)).1.1⟩

/-- C9 counterexample: the dry-run filter counts all citing books, not
only the supplied ones.  With books "A" and "B" supplied, reference "R" —
cited by supplied "A" and unsupplied "Z", i.e. by exactly one supplied
book — still appears in the report with both citing books. -/
theorem c9_report_counts_all_books :
    (intersect trgmNone dbC9 ["A", "B"] false).2 = [[("R", ["A", "Z"])]] ∧
    ((booksOf dbC9 "R").filter (fun b => decide (b ∈ ["A", "B"]))).length = 1 :=
  ⟨by decide, by decide⟩

/-- C9 (amended): a dry-run pass over a candidate reports `(id, citing
books)` for a matched reference exactly when that reference is cited by
more than one book in total (supplied or not); matched references cited by
at most one book are suppressed. -/
theorem c9_dry_run_report (trgm : Trgm) (db : DB) (referenceId : String)
    (book_ids : List String) (rid : String) (bs : List String) :
    (rid, bs) ∈ ((intersect_reference trgm db referenceId true book_ids).2.getD []) ↔
      ∃ r ∈ matchedRefs trgm db referenceId book_ids,
        rid = r.id ∧ bs = booksOf db r.id ∧ (booksOf db r.id).length > 1 := by
  show (rid, bs) ∈ ((matchedRefs trgm db referenceId book_ids).filter
      (fun r => decide ((booksOf db r.id).length > 1))).map
      (fun r => (r.id, booksOf db r.id)) ↔ _
  constructor
  · intro hmem
    obtain ⟨r, hr, heq⟩ := List.mem_map.mp hmem
    obtain ⟨hr1, hr2⟩ := List.mem_filter.mp hr
    obtain ⟨he1, he2⟩ := Prod.mk.injEq .. ▸ heq
    exact ⟨r, hr1, he1.symm, he2.symm, by simpa using hr2⟩
  · rintro ⟨r, hr, rfl, rfl, hlen⟩
    exact List.mem_map.mpr ⟨r, List.mem_filter.mpr ⟨hr, by simpa using hlen⟩, rfl⟩

/-- C6: a candidate returned by the trigram query is accepted exactly when
its distance is at most `MIN_TITLE_THRESHOLD` (lower = more similar, `<=`
not `<`) or the author-fuzzy test passes, and the fuzzy matcher returns
precisely the reference ids of the accepted candidates. -/
theorem c6_fuzzy_acceptance (trgm : Trgm) (db : DB) (reference : MatchInput) (t : String)
    (book_ids : List String) (ht : reference.title = some t) (pd : ParsedReference × ℚ) :
    (pd ∈ fuzzyMatches trgm db reference t book_ids ↔
      pd ∈ fuzzyCandidates trgm db t book_ids ∧
        (pd.2 ≤ MIN_TITLE_THRESHOLD ∨ match_authors_fuzzy reference.author pd.1 = true)) ∧
    match_fuzzy trgm db reference book_ids =
      (fuzzyMatches trgm db reference t book_ids).map (fun pd => pd.1.reference_id) := by
  constructor
  · simp [fuzzyMatches, List.mem_filter, Bool.or_eq_true, decide_eq_true_eq]
  · simp [match_fuzzy, ht]

/-- Witness for C6 on the one-parse store `dbC6` at distance 0. -/
theorem c6_fuzzy_acceptance_witness :
    (toMatchInput prJones).title = some "T" ∧
    ((prJones, (0:ℚ)) ∈ fuzzyMatches trgmZero dbC6 (toMatchInput prJones) "T" [] ↔
      (prJones, (0:ℚ)) ∈ fuzzyCandidates trgmZero dbC6 "T" [] ∧
        ((0:ℚ) ≤ MIN_TITLE_THRESHOLD ∨
          match_authors_fuzzy (toMatchInput prJones).author prJones = true)) ∧
    match_fuzzy trgmZero dbC6 (toMatchInput prJones) [] =
      (fuzzyMatches trgmZero dbC6 (toMatchInput prJones) "T" []).map
        (fun pd => pd.1.reference_id) :=
  ⟨rfl,
    (c6_fuzzy_acceptance trgmZero dbC6 (toMatchInput prJones) "T" [] rfl (prJones, 0)).1,
    (c6_fuzzy_acceptance trgmZero dbC6 (toMatchInput prJones) "T" [] rfl (prJones, 0)).2⟩

/-! ## The reference miner -/

theorem persistParse_cases (ref : String) (db : DB) (pp : String × Option ParseRecord) :
    (¬ usableParse pp ∧ persistParse ref db pp = db) ∨
    (usableParse pp ∧ hasRow db ref pp.1 ∧ persistParse ref db pp = db) ∨
    (∃ rec t, pp.2 = some rec ∧ rec.title = some t ∧ t ≠ "" ∧
      (∀ q ∈ db.parsedRefs, ¬(q.reference_id = ref ∧ q.parser = pp.1)) ∧
      persistParse ref db pp =
        { db with parsedRefs := db.parsedRefs ++ [mkRow ref pp.1 rec] }) := by
  rcases pp with ⟨parser, _ | rec⟩
  · exact Or.inl ⟨by simp [usableParse], rfl⟩
  rcases hrt : rec.title with _ | t
  · refine Or.inl ⟨?_, by simp [persistParse, hrt]⟩
    rintro ⟨rec', t', hr', ht', _⟩
    rw [Option.some_inj] at hr'
    rw [← hr', hrt] at ht'
    exact Option.noConfusion ht'
  by_cases ht : t = ""
  · refine Or.inl ⟨?_, by simp [persistParse, hrt, ht]⟩
    rintro ⟨rec', t', hr', ht', hne⟩
    rw [Option.some_inj] at hr'
    rw [← hr', hrt, Option.some_inj] at ht'
    exact hne (ht' ▸ ht)
  by_cases hex : (db.parsedRefs.any (fun p =>
      decide (p.reference_id = ref) && decide (p.parser = parser))) = true
  · refine Or.inr (Or.inl ⟨⟨rec, t, rfl, hrt, ht⟩, ?_, by simp [persistParse, hrt, ht, hex]⟩)
    obtain ⟨q, hq, hpred⟩ := List.any_eq_true.mp hex
    rw [Bool.and_eq_true, decide_eq_true_eq, decide_eq_true_eq] at hpred
    exact ⟨q, hq, hpred.1, hpred.2⟩
  · refine Or.inr (Or.inr ⟨rec, t, rfl, hrt, ht, ?_, by simp [persistParse, hrt, ht, hex]⟩)
    intro q hq hcon
    exact hex (List.any_eq_true.mpr ⟨q, hq, by simp [hcon.1, hcon.2]⟩)

theorem persistParse_frame (ref : String) (db : DB) (pp : String × Option ParseRecord) :
    (persistParse ref db pp).books = db.books ∧
    (persistParse ref db pp).refs = db.refs ∧
    (persistParse ref db pp).bookRefs = db.bookRefs := by
  rcases persistParse_cases ref db pp with ⟨_, h⟩ | ⟨_, _, h⟩ | ⟨rec, t, _, _, _, _, h⟩ <;>
    rw [h] <;> exact ⟨rfl, rfl, rfl⟩

theorem persistParse_append (ref : String) (db : DB) (pp : String × Option ParseRecord) :
    ∃ tail, (persistParse ref db pp).parsedRefs = db.parsedRefs ++ tail ∧
      ∀ q ∈ tail, ∃ rec t, pp.2 = some rec ∧ rec.title = some t ∧ t ≠ "" ∧
        q = mkRow ref pp.1 rec := by
  rcases persistParse_cases ref db pp with ⟨_, h⟩ | ⟨_, _, h⟩ | ⟨rec, t, h1, h2, h3, _, h⟩
  · exact ⟨[], by simp [h], by simp⟩
  · exact ⟨[], by simp [h], by simp⟩
  · refine ⟨[mkRow ref pp.1 rec], by simp [h], ?_⟩
    intro q hq
    rw [List.mem_singleton] at hq
    exact ⟨rec, t, h1, h2, h3, hq⟩

theorem persistParse_ensures (ref : String) (db : DB) (pp : String × Option ParseRecord)
    (hu : usableParse pp) : hasRow (persistParse ref db pp) ref pp.1 := by
  rcases persistParse_cases ref db pp with ⟨hn, _⟩ | ⟨_, ⟨q, hq, hk⟩, h⟩ |
      ⟨rec, t, _, _, _, _, h⟩
  · exact absurd hu hn
  · exact ⟨q, by rw [h]; exact hq, hk⟩
  · exact ⟨mkRow ref pp.1 rec, by simp [h], rfl, rfl⟩

theorem persistParse_stable (ref : String) (db : DB) (pp : String × Option ParseRecord)
    (h : usableParse pp → hasRow db ref pp.1) : persistParse ref db pp = db := by
  rcases persistParse_cases ref db pp with ⟨_, he⟩ | ⟨_, _, he⟩ |
      ⟨rec, t, h1, h2, h3, hnone, _⟩
  · exact he
  · exact he
  · obtain ⟨q, hq, hk1, hk2⟩ := h ⟨rec, t, h1, h2, h3⟩
    exact absurd ⟨hk1, hk2⟩ (hnone q hq)

theorem foldPP_frame (ref : String) :
    ∀ (pps : List (String × Option ParseRecord)) (db : DB),
      (pps.foldl (persistParse ref) db).books = db.books ∧
      (pps.foldl (persistParse ref) db).refs = db.refs ∧
      (pps.foldl (persistParse ref) db).bookRefs = db.bookRefs := by
  intro pps
  induction pps with
  | nil => intro db; exact ⟨rfl, rfl, rfl⟩
  | cons pp pps ih =>
    intro db
    rw [List.foldl_cons]
    obtain ⟨h1, h2, h3⟩ := ih (persistParse ref db pp)
    obtain ⟨g1, g2, g3⟩ := persistParse_frame ref db pp
    exact ⟨h1.trans g1, h2.trans g2, h3.trans g3⟩

theorem foldPP_append (ref : String) :
    ∀ (pps : List (String × Option ParseRecord)) (db : DB),
      ∃ tail, (pps.foldl (persistParse ref) db).parsedRefs = db.parsedRefs ++ tail ∧
        ∀ q ∈ tail, ∃ pp ∈ pps, ∃ rec t, pp.2 = some rec ∧ rec.title = some t ∧ t ≠ "" ∧
          q = mkRow ref pp.1 rec := by
  intro pps
  induction pps with
  | nil => intro db; exact ⟨[], by simp, by simp⟩
  | cons pp pps ih =>
    intro db
    rw [List.foldl_cons]
    obtain ⟨tail1, he1, hp1⟩ := persistParse_append ref db pp
    obtain ⟨tail2, he2, hp2⟩ := ih (persistParse ref db pp)
    refine ⟨tail1 ++ tail2, by rw [he2, he1, List.append_assoc], ?_⟩
    intro q hq
    rcases List.mem_append.mp hq with hq | hq
    · obtain ⟨rec, t, h1, h2, h3, h4⟩ := hp1 q hq
      exact ⟨pp, List.mem_cons_self pp pps, rec, t, h1, h2, h3, h4⟩
    · obtain ⟨pp', hpp', rest⟩ := hp2 q hq
      exact ⟨pp', List.mem_cons_of_mem pp hpp', rest⟩

theorem foldPP_mono (ref : String) (pps : List (String × Option ParseRecord)) (db : DB)
    {q : ParsedReference} (hq : q ∈ db.parsedRefs) :
    q ∈ (pps.foldl (persistParse ref) db).parsedRefs := by
  obtain ⟨tail, he, _⟩ := foldPP_append ref pps db
  rw [he]
  exact List.mem_append_left tail hq

theorem foldPP_ensures (ref : String) :
    ∀ (pps : List (String × Option ParseRecord)) (db : DB),
      ∀ pp ∈ pps, usableParse pp →
        hasRow (pps.foldl (persistParse ref) db) ref pp.1 := by
  intro pps
  induction pps with
  | nil => intro db pp hpp; simp at hpp
  | cons pp' pps ih =>
    intro db pp hpp hu
    rw [List.foldl_cons]
    rcases List.mem_cons.mp hpp with hpp | hpp
    · subst hpp
      obtain ⟨q, hq, hk⟩ := persistParse_ensures ref db pp hu
      exact ⟨q, foldPP_mono ref pps _ hq, hk⟩
    · exact ih (persistParse ref db pp') pp hpp hu

theorem foldPP_stable (ref : String) :
    ∀ (pps : List (String × Option ParseRecord)) (db : DB),
      (∀ pp ∈ pps, usableParse pp → hasRow db ref pp.1) →
      pps.foldl (persistParse ref) db = db := by
  intro pps
  induction pps with
  | nil => intro db _; rfl
  | cons pp pps ih =>
    intro db h
    rw [List.foldl_cons,
      persistParse_stable ref db pp (h pp (List.mem_cons_self pp pps))]
    exact ih db (fun pp' hpp' => h pp' (List.mem_cons_of_mem pp hpp'))

theorem ensureReference_spec (ref : String) (db : DB) :
    (ensureReference ref db).books = db.books ∧
    (ensureReference ref db).bookRefs = db.bookRefs ∧
    (ensureReference ref db).parsedRefs = db.parsedRefs ∧
    (∀ r ∈ db.refs, r ∈ (ensureReference ref db).refs) ∧
    (∃ r ∈ (ensureReference ref db).refs, r.id = ref) := by
  unfold ensureReference
  by_cases h : db.refs.any (fun r => decide (r.id = ref)) = true
  · obtain ⟨r, hr, hid⟩ := List.any_eq_true.mp h
    rw [decide_eq_true_eq] at hid
    rw [if_pos h]
    exact ⟨rfl, rfl, rfl, fun r hr => hr, ⟨r, hr, hid⟩⟩
  · rw [if_neg h]
    exact ⟨rfl, rfl, rfl, fun r hr => List.mem_append_left _ hr,
      ⟨⟨ref, none⟩, List.mem_append_right _ (List.mem_singleton.mpr rfl), rfl⟩⟩

theorem linkBookReference_spec (b ref : String) (db : DB) :
    (linkBookReference b ref db).books = db.books ∧
    (linkBookReference b ref db).refs = db.refs ∧
    (linkBookReference b ref db).parsedRefs = db.parsedRefs ∧
    (∀ x ∈ db.bookRefs, x ∈ (linkBookReference b ref db).bookRefs) ∧
    (b, ref) ∈ (linkBookReference b ref db).bookRefs := by
  unfold linkBookReference
  by_cases h : db.bookRefs.any (fun br => decide (br = (b, ref))) = true
  · obtain ⟨x, hx, hid⟩ := List.any_eq_true.mp h
    rw [decide_eq_true_eq] at hid
    rw [if_pos h]
    exact ⟨rfl, rfl, rfl, fun x hx => hx, hid ▸ hx⟩
  · rw [if_neg h]
    exact ⟨rfl, rfl, rfl, fun x hx => List.mem_append_left _ hx,
      List.mem_append_right _ (List.mem_singleton.mpr rfl)⟩

theorem persistRef_spec (b : String) (db : DB) (ref : String)
    (pps : List (String × Option ParseRecord)) :
    (persistRef b db (ref, pps)).books = db.books ∧
    (∀ r ∈ db.refs, r ∈ (persistRef b db (ref, pps)).refs) ∧
    (∀ x ∈ db.bookRefs, x ∈ (persistRef b db (ref, pps)).bookRefs) ∧
    (∃ tp, (persistRef b db (ref, pps)).parsedRefs = db.parsedRefs ++ tp ∧
      ∀ q ∈ tp, ∃ pp ∈ pps, ∃ rec t, pp.2 = some rec ∧ rec.title = some t ∧ t ≠ "" ∧
        q = mkRow ref pp.1 rec) ∧
    MinedComplete b (persistRef b db (ref, pps)) (ref, pps) := by
  have hrw : persistRef b db (ref, pps) =
      pps.foldl (persistParse ref) (linkBookReference b ref (ensureReference ref db)) := rfl
  rw [hrw]
  obtain ⟨e1, e2, e3, e4, e5⟩ := ensureReference_spec ref db
  obtain ⟨l1, l2, l3, l4, l5⟩ := linkBookReference_spec b ref (ensureReference ref db)
  obtain ⟨f1, f2, f3⟩ := foldPP_frame ref pps (linkBookReference b ref (ensureReference ref db))
  obtain ⟨tp, htp, hall⟩ := foldPP_append ref pps (linkBookReference b ref (ensureReference ref db))
  refine ⟨f1.trans (l1.trans e1), ?_, ?_, ⟨tp, ?_, hall⟩, ?_⟩
  · intro r hr
    rw [f2, l2]
    exact e4 r hr
  · intro x hx
    rw [f3]
    exact l4 x (by rw [e2]; exact hx)
  · rw [htp, l3, e3]
  · obtain ⟨r, hrmem, hrid⟩ := e5
    refine ⟨⟨r, by rw [f2, l2]; exact hrmem, hrid⟩, by rw [f3]; exact l5, ?_⟩
    intro pp hpp hu
    exact foldPP_ensures ref pps _ pp hpp hu

theorem persistRef_stable (b : String) (db : DB)
    (e : String × List (String × Option ParseRecord)) (h : MinedComplete b db e) :
    persistRef b db e = db := by
  rcases e with ⟨ref, pps⟩
  obtain ⟨⟨r, hr, hid⟩, hlink, hparses⟩ := h
  have h1 : ensureReference ref db = db := by
    have hc : db.refs.any (fun r => decide (r.id = ref)) = true :=
      List.any_eq_true.mpr ⟨r, hr, decide_eq_true hid⟩
    simp [ensureReference, hc]
  have h2 : linkBookReference b ref db = db := by
    have hc : db.bookRefs.any (fun br => decide (br = (b, ref))) = true :=
      List.any_eq_true.mpr ⟨(b, ref), hlink, by simp⟩
    simp [linkBookReference, hc]
  show pps.foldl (persistParse ref) (linkBookReference b ref (ensureReference ref db)) = db
  rw [h1, h2]
  exact foldPP_stable ref pps db hparses

theorem MinedComplete_mono (b : String) {db db2 : DB}
    (e : String × List (String × Option ParseRecord)) (h : MinedComplete b db e)
    (hr : ∀ r ∈ db.refs, r ∈ db2.refs)
    (hb : ∀ x ∈ db.bookRefs, x ∈ db2.bookRefs)
    (hp : ∀ q ∈ db.parsedRefs, q ∈ db2.parsedRefs) :
    MinedComplete b db2 e := by
  obtain ⟨⟨r, hr1, hr2⟩, h2, h3⟩ := h
  refine ⟨⟨r, hr r hr1, hr2⟩, hb _ h2, ?_⟩
  intro pp hpp hu
  obtain ⟨q, hq, hk⟩ := h3 pp hpp hu
  exact ⟨q, hp q hq, hk⟩

theorem foldPR_spec (b : String) :
    ∀ (entries : List (String × List (String × Option ParseRecord))) (db : DB),
      (entries.foldl (persistRef b) db).books = db.books ∧
      (∀ r ∈ db.refs, r ∈ (entries.foldl (persistRef b) db).refs) ∧
      (∀ x ∈ db.bookRefs, x ∈ (entries.foldl (persistRef b) db).bookRefs) ∧
      (∃ tp, (entries.foldl (persistRef b) db).parsedRefs = db.parsedRefs ++ tp ∧
        ∀ q ∈ tp, ∃ e ∈ entries, ∃ pp ∈ e.2, ∃ rec t, pp.2 = some rec ∧
          rec.title = some t ∧ t ≠ "" ∧ q = mkRow e.1 pp.1 rec) := by
  intro entries
  induction entries with
  | nil =>
    intro db
    exact ⟨rfl, fun r hr => hr, fun x hx => hx, ⟨[], by simp, by simp⟩⟩
  | cons e es ih =>
    intro db
    rw [List.foldl_cons]
    rcases e with ⟨ref, pps⟩
    obtain ⟨s1, s2, s3, ⟨tp1, htp1, hall1⟩, _⟩ := persistRef_spec b db ref pps
    obtain ⟨i1, i2, i3, ⟨tp2, htp2, hall2⟩⟩ := ih (persistRef b db (ref, pps))
    refine ⟨i1.trans s1, fun r hr => i2 r (s2 r hr), fun x hx => i3 x (s3 x hx),
      ⟨tp1 ++ tp2, by rw [htp2, htp1, List.append_assoc], ?_⟩⟩
    intro q hq
    rcases List.mem_append.mp hq with hq | hq
    · obtain ⟨pp, hpp, rest⟩ := hall1 q hq
      exact ⟨(ref, pps), List.mem_cons_self _ _, pp, hpp, rest⟩
    · obtain ⟨e', he', rest⟩ := hall2 q hq
      exact ⟨e', List.mem_cons_of_mem _ he', rest⟩

theorem foldPR_complete (b : String) :
    ∀ (entries : List (String × List (String × Option ParseRecord))) (db : DB),
      ∀ e ∈ entries, MinedComplete b (entries.foldl (persistRef b) db) e := by
  intro entries
  induction entries with
  | nil => intro db e he; simp at he
  | cons e' es ih =>
    intro db e he
    rw [List.foldl_cons]
    rcases List.mem_cons.mp he with he | he
    · subst he
      rcases e with ⟨ref, pps⟩
      obtain ⟨_, _, _, _, hcomp⟩ := persistRef_spec b db ref pps
      obtain ⟨j1, j2, j3, ⟨tp, htp, _⟩⟩ := foldPR_spec b es (persistRef b db (ref, pps))
      refine MinedComplete_mono b (ref, pps) hcomp j2 j3 ?_
      intro q hq
      rw [htp]
      exact List.mem_append_left _ hq
    · exact ih (persistRef b db e') e he

theorem foldPR_stable (b : String) :
    ∀ (entries : List (String × List (String × Option ParseRecord))) (db : DB),
      (∀ e ∈ entries, MinedComplete b db e) →
      entries.foldl (persistRef b) db = db := by
  intro entries
  induction entries with
  | nil => intro db _; rfl
  | cons e es ih =>
    intro db h
    rw [List.foldl_cons, persistRef_stable b db e (h e (List.mem_cons_self e es))]
    exact ih db (fun e' he' => h e' (List.mem_cons_of_mem e he'))

/-- C4: the miner never persists a parse without a usable title.  When
`persist` succeeds, every `ParsedReference` row of the result either was
already present or is the row built from a parse result that exists, has a
`title` key and a non-empty title; consequently, if all pre-existing rows
have non-empty titles, so do all rows after mining. -/
theorem c4_no_title_no_persist (book_id : String)
    (entries : List (String × List (String × Option ParseRecord))) (db db' : DB)
    (h : persist book_id entries db = some db') :
    (∀ q ∈ db'.parsedRefs, q ∈ db.parsedRefs ∨
      ∃ e ∈ entries, ∃ pp ∈ e.2, ∃ rec t, pp.2 = some rec ∧ rec.title = some t ∧
        t ≠ "" ∧ q = mkRow e.1 pp.1 rec) ∧
    ((∀ q ∈ db.parsedRefs, ∃ t, q.title = some t ∧ t ≠ "") →
      ∀ q ∈ db'.parsedRefs, ∃ t, q.title = some t ∧ t ≠ "") := by
  have hdb' : db' = entries.foldl (persistRef book_id) db := by
    unfold persist at h
    by_cases hg : db.books.any (fun b => decide (b = book_id)) = true
    · rw [if_pos hg, Option.some_inj] at h
      exact h.symm
    · rw [if_neg hg] at h
      exact Option.noConfusion h
  subst hdb'
  obtain ⟨_, _, _, ⟨tp, htp, hall⟩⟩ := foldPR_spec book_id entries db
  constructor
  · intro q hq
    rw [htp] at hq
    rcases List.mem_append.mp hq with hq | hq
    · exact Or.inl hq
    · exact Or.inr (hall q hq)
  · intro hbase q hq
    rw [htp] at hq
    rcases List.mem_append.mp hq with hq | hq
    · exact hbase q hq
    · obtain ⟨e, _, pp, _, rec, t, _, hrt, hne, hmk⟩ := hall q hq
      refine ⟨t, ?_, hne⟩
      rw [hmk]
      exact hrt

/-- Witness for C4 on the fixture: mining `entW` (one usable parse "P",
one failed parse "Q", one empty-title parse "S") into the empty store
persists only the "P" row. -/
theorem c4_no_title_no_persist_witness :
    persist "A" entW dbW = some dbW' ∧
    (∀ q ∈ dbW'.parsedRefs, q ∈ dbW.parsedRefs ∨
      ∃ e ∈ entW, ∃ pp ∈ e.2, ∃ rec t, pp.2 = some rec ∧ rec.title = some t ∧
        t ≠ "" ∧ q = mkRow e.1 pp.1 rec) ∧
    ((∀ q ∈ dbW.parsedRefs, ∃ t, q.title = some t ∧ t ≠ "") →
      ∀ q ∈ dbW'.parsedRefs, ∃ t, q.title = some t ∧ t ≠ "") :=
  ⟨by decide, (c4_no_title_no_persist "A" entW dbW dbW' (by decide)).1,
    (c4_no_title_no_persist "A" entW dbW dbW' (by decide)).2⟩

/-- C5: mining persistence is idempotent.  When `persist` succeeds,
running the same persist step again on its result changes nothing:
existing `(reference, parser)` rows are skipped, never overwritten, and
the book link is not duplicated. -/
theorem c5_mining_idempotent (book_id : String)
    (entries : List (String × List (String × Option ParseRecord))) (db db' : DB)
    (h : persist book_id entries db = some db') :
    persist book_id entries db' = some db' := by
  have hg : db.books.any (fun b => decide (b = book_id)) = true := by
    by_contra hng
    unfold persist at h
    rw [if_neg hng] at h
    exact Option.noConfusion h
  have hdb' : db' = entries.foldl (persistRef book_id) db := by
    unfold persist at h
    rw [if_pos hg, Option.some_inj] at h
    exact h.symm
  have hbooks : db'.books = db.books := by
    rw [hdb']
    exact (foldPR_spec book_id entries db).1
  have hg' : db'.books.any (fun b => decide (b = book_id)) = true := by
    rw [hbooks]
    exact hg
  have hcomp : ∀ e ∈ entries, MinedComplete book_id db' e := by
    rw [hdb']
    exact fun e he => foldPR_complete book_id entries db e he
  unfold persist
  rw [if_pos hg', foldPR_stable book_id entries db' hcomp]

/-- Witness for C5: mining `entW` into `dbW` yields `dbW'`, and mining it
again yields `dbW'` unchanged. -/
theorem c5_mining_idempotent_witness :
    persist "A" entW dbW = some dbW' ∧ persist "A" entW dbW' = some dbW' :=
  ⟨by decide, c5_mining_idempotent "A" entW dbW dbW' (by decide)⟩

end Doab
